import Mathlib

/-!
Verification of the shellbot repository (command.py, pyrcb.py) against its
natural-language specification.  Strings are modelled as lists of characters,
machine integers as Nat/Int, fallible code as Option/Except, and the stateful
command-runner loop as an explicit step function on a state type.
-/

/-- Characters of a Python str value. -/
abbrev Str := List Char

/-! ## command.py: setid (privilege drop) -/

/-- Process credentials (uid, gid) of the spawned child. -/
structure Creds where
  uid : Nat
  gid : Nat
deriving DecidableEq, Repr

/-- Embedding of setid from command.py.  The function asserts that both its
uid and gid arguments are nonzero (an assertion failure is modelled as none)
and otherwise yields the credentials that the returned preexec function
establishes in the child: it calls os.setgid with its uid argument and
os.setuid with its gid argument. -/
def setid (uid gid : Nat) : Option Creds :=
  if uid = 0 then none
  else if gid = 0 then none
  else some { uid := gid, gid := uid }

/-! ## command.py: CommandRunner.run termination phase -/

/-- Signals sent to the process group by CommandRunner.run. -/
inductive Sig where
  | sigterm
  | sigkill
deriving DecidableEq, Repr

/-- Observable effects of CommandRunner.run after the subprocess is spawned. -/
inductive RunAction where
  | readOutput
  | signalGroup (s : Sig)
  | waitProc (bounded : Bool)
  | decodeOutput
deriving DecidableEq, Repr

/-- Abstract behaviour of one subprocess during a run: whether the main
process is still alive when the output-read phase ends (process.poll() is
None), and whether process.wait(timeout / 2) returns without raising
TimeoutExpired. -/
structure ProcBehavior where
  aliveAtReadEnd : Bool
  exitsWithinHalfTimeout : Bool

/-- Trace of effects of CommandRunner.run for a subprocess behaving as p:
read the output; if process.poll() is None, os.killpg(..., SIGTERM); then
process.wait(self.timeout / 2) (a bounded wait); on TimeoutExpired,
os.killpg(..., SIGKILL); finally decode the captured output and return. -/
def runTrace (p : ProcBehavior) : List RunAction :=
  [RunAction.readOutput] ++
  (if p.aliveAtReadEnd then [RunAction.signalGroup Sig.sigterm] else []) ++
  [RunAction.waitProc true] ++
  (if p.exitsWithinHalfTimeout then [] else [RunAction.signalGroup Sig.sigkill]) ++
  [RunAction.decodeOutput]

/-! ## Theorems for C1 and C2 -/

/-- C1: the code refuses uid 0 and gid 0 as the claim states, but at a user
with pw_uid = 1000 and pw_gid = 1001 the preexec function leaves the child
with uid 1001 and gid 1000 — os.setgid receives the uid and os.setuid
receives the gid, the reverse of the claimed assignment. -/
theorem c1_setid_swaps_uid_gid :
    setid 0 5 = none ∧ setid 5 0 = none ∧
    setid 1000 1001 = some { uid := 1001, gid := 1000 } ∧
    setid 1000 1001 ≠ some { uid := 1000, gid := 1001 } := by
  decide

/-- C2 counterexample: in the run where the main process has already exited
when the read phase ends (but children may remain), the graceful SIGTERM is
not sent at all, so the signal is not unconditional as claimed. -/
theorem c2_sigterm_not_unconditional :
    RunAction.signalGroup Sig.sigterm ∉
      runTrace { aliveAtReadEnd := false, exitsWithinHalfTimeout := true } := by
  decide

/-- C2 amended: SIGTERM is sent to the process group exactly when the main
process is still alive at the end of the read phase; a bounded wait of half
the timeout always follows; SIGKILL is sent exactly when that wait raises
TimeoutExpired; and no unbounded wait ever occurs (in particular none after
SIGKILL). -/
theorem c2_termination_escalation :
    ∀ p : ProcBehavior,
      (RunAction.signalGroup Sig.sigterm ∈ runTrace p ↔ p.aliveAtReadEnd = true) ∧
      (RunAction.waitProc true ∈ runTrace p) ∧
      (RunAction.signalGroup Sig.sigkill ∈ runTrace p ↔
        p.exitsWithinHalfTimeout = false) ∧
      RunAction.waitProc false ∉ runTrace p := by
  intro p
  obtain ⟨a, e⟩ := p
  cases a <;> cases e <;> decide

/-! ## pyrcb.py: IStr case rules -/

/-- ASCII fragment of Python str.lower, the fragment exercised by IRC
identifiers; characters outside A-Z are returned unchanged. -/
def pyLowerChar (c : Char) : Char :=
  if 'A' ≤ c ∧ c ≤ 'Z' then Char.ofNat (c.toNat + 32) else c

/-- ASCII fragment of Python str.upper. -/
def pyUpperChar (c : Char) : Char :=
  if 'a' ≤ c ∧ c ≤ 'z' then Char.ofNat (c.toNat - 32) else c

/-- Python str.replace for a single-character pattern. -/
def replaceChar (old new : Char) (s : Str) : Str :=
  s.map fun c => if c = old then new else c

/-- Embedding of IStr.make_lower: lowercase the string, then replace each of
the characters [ ] \ ~ by its partner in braces-pipe-caret order. -/
def make_lower (s : Str) : Str :=
  replaceChar '~' '^'
    (replaceChar '\\' '|'
      (replaceChar ']' '\x7d'
        (replaceChar '[' '\x7b' (s.map pyLowerChar))))

/-- Embedding of IStr.make_upper: uppercase the string, then replace each of
the four lowercase-partner symbols by [ ] \ ~. -/
def make_upper (s : Str) : Str :=
  replaceChar '^' '~'
    (replaceChar '|' '\\'
      (replaceChar '\x7d' ']'
        (replaceChar '\x7b' '[' (s.map pyUpperChar))))

/-- The IStr type: the display string is stored unchanged; the canonical
lowercase form is computed by make_lower. -/
structure IStr where
  data : Str
deriving DecidableEq, Repr

/-- Conversion of an IStr back to the case-sensitive str form (Python
str(istr)) returns the stored display string. -/
def IStr.toStr (s : IStr) : Str := s.data

/-- IStr equality as installed by the istr_methods decorator: the cached
canonical-lowercase form of the left operand is compared with
make_lower of the right operand. -/
def istr_eq (a b : Str) : Bool := make_lower a == make_lower b

/-- Character map realizing the effect of make_lower on one character. -/
def make_lower_char (c : Char) : Char :=
  let c1 := pyLowerChar c
  let c2 := if c1 = '[' then '\x7b' else c1
  let c3 := if c2 = ']' then '\x7d' else c2
  let c4 := if c3 = '\\' then '|' else c3
  if c4 = '~' then '^' else c4

/-- The 4-pair case substitution of the claim, in either direction:
each of [ ] \ ~ swaps with its partner in braces-pipe-caret order. -/
def pairSwap (c : Char) : Char :=
  if c = '[' then '\x7b' else if c = '\x7b' then '['
  else if c = ']' then '\x7d' else if c = '\x7d' then ']'
  else if c = '\\' then '|' else if c = '|' then '\\'
  else if c = '~' then '^' else if c = '^' then '~'
  else c

theorem make_lower_eq_map (s : Str) : make_lower s = s.map make_lower_char := by
  unfold make_lower replaceChar
  simp only [List.map_map]
  apply List.map_congr_left
  intro c _
  simp only [Function.comp_apply, make_lower_char]

theorem make_lower_char_pairSwap (c : Char) :
    make_lower_char (pairSwap c) = make_lower_char c := by
  unfold pairSwap
  split_ifs with h1 h2 h3 h4 h5 h6 h7 h8
  · subst h1; decide
  · subst h2; decide
  · subst h3; decide
  · subst h4; decide
  · subst h5; decide
  · subst h6; decide
  · subst h7; decide
  · subst h8; decide
  · rfl

theorem pairSwap_involutive (c : Char) : pairSwap (pairSwap c) = c := by
  by_cases h1 : c = '['
  · subst h1; decide
  by_cases h2 : c = '\x7b'
  · subst h2; decide
  by_cases h3 : c = ']'
  · subst h3; decide
  by_cases h4 : c = '\x7d'
  · subst h4; decide
  by_cases h5 : c = '\\'
  · subst h5; decide
  by_cases h6 : c = '|'
  · subst h6; decide
  by_cases h7 : c = '~'
  · subst h7; decide
  by_cases h8 : c = '^'
  · subst h8; decide
  have hc : pairSwap c = c := by
    simp [pairSwap, h1, h2, h3, h4, h5, h6, h7, h8]
  rw [hc, hc]

theorem make_lower_pairSwap (s : Str) :
    make_lower (s.map pairSwap) = make_lower s :=
  calc make_lower (s.map pairSwap)
      = (s.map pairSwap).map make_lower_char := make_lower_eq_map _
    _ = s.map (make_lower_char ∘ pairSwap) := List.map_map _ _ _
    _ = s.map make_lower_char :=
        List.map_congr_left fun c _ => by
          simp only [Function.comp_apply]
          exact make_lower_char_pairSwap c
    _ = make_lower s := (make_lower_eq_map s).symm

/-- Bridge between the Bool equality of istr_eq and make_lower. -/
theorem istr_eq_iff (a b : Str) :
    istr_eq a b = true ↔ make_lower a = make_lower b := by
  simp [istr_eq]

/-- C9 counterexample: the claimed concrete instance is false — the IRC
lowercase form of "STRing^" is "string^", which differs from "string\x7d"
in its final character, so IStr "STRing^" does not equal "string\x7d". -/
theorem c9_cx_string_brace :
    istr_eq ("STRing^".toList) ("string\x7d".toList) = false := by
  decide

/-- C9 amended: identifier equality is reflexive, symmetric and transitive,
is invariant under the 4-pair case substitution applied in either direction
(and that substitution is an involution), satisfies the concrete instances
IStr "STRing^" = "STRING~" and IStr "STRing^" = "string^" (the latter
replacing the claim's false instance with "string\x7d"), and converting an
IStr back to the case-sensitive string form yields the stored characters
unchanged. -/
theorem c9_istr_case_rules :
    (∀ a : Str, istr_eq a a = true) ∧
    (∀ a b : Str, istr_eq a b = true → istr_eq b a = true) ∧
    (∀ a b c : Str, istr_eq a b = true → istr_eq b c = true →
      istr_eq a c = true) ∧
    (∀ a : Str, istr_eq a (a.map pairSwap) = true ∧
      istr_eq (a.map pairSwap) a = true) ∧
    (∀ c : Char, pairSwap (pairSwap c) = c) ∧
    istr_eq ("STRing^".toList) ("STRING~".toList) = true ∧
    istr_eq ("STRing^".toList) ("string^".toList) = true ∧
    (∀ s : Str, (IStr.mk s).toStr = s) := by
  refine ⟨?_, ?_, ?_, ?_, pairSwap_involutive, by decide, by decide,
    fun s => rfl⟩
  · intro a
    exact (istr_eq_iff a a).mpr rfl
  · intro a b h
    exact (istr_eq_iff b a).mpr ((istr_eq_iff a b).mp h).symm
  · intro a b c hab hbc
    exact (istr_eq_iff a c).mpr
      (((istr_eq_iff a b).mp hab).trans ((istr_eq_iff b c).mp hbc))
  · intro a
    constructor
    · exact (istr_eq_iff a (a.map pairSwap)).mpr (make_lower_pairSwap a).symm
    · exact (istr_eq_iff (a.map pairSwap) a).mpr (make_lower_pairSwap a)

/-- C9 witness: the symmetry and transitivity components applied at concrete
identifiers. -/
theorem c9_istr_case_rules_witness :
    istr_eq ("A".toList) ("a".toList) = true ∧
    istr_eq ("ab[".toList) ("Ab\x7b".toList) = true :=
  ⟨c9_istr_case_rules.2.1 ("a".toList) ("A".toList) (by decide),
   c9_istr_case_rules.2.2.1 ("ab[".toList) ("AB[".toList) ("Ab\x7b".toList)
     (by decide) (by decide)⟩

/-! ## pyrcb.py: outbound rate limiting (IRCBot.add_delayed) -/

/-- Per-target throttle entry stored in IRCBot.last_sent: the last computed
message due-time and the consecutive-send count (default entry is (0, 0)). -/
structure ThrottleEntry where
  lastTime : ℚ
  consecutive : ℕ
deriving DecidableEq, Repr

/-- Constant self.delay_multiplier = 0.1 from IRCBot. -/
def delay_multiplier : ℚ := 1/10

/-- Constant self.max_delay = 1.5 from IRCBot. -/
def max_delay : ℚ := 3/2

/-- Constant self.consecutive_timeout = 5 from IRCBot. -/
def consecutive_timeout : ℚ := 5

/-- Embedding of IRCBot.add_delayed for one target (delay enabled), with the
monotonic clock value best_clock() passed in as now.  Returns the computed
message_time (the due-time inserted into the delay buffer) and the updated
last_sent entry for the target.  Python float arithmetic is modelled by exact
rationals. -/
def add_delayed (e : ThrottleEntry) (now : ℚ) : ℚ × ThrottleEntry :=
  let consecutive :=
    if now - e.lastTime ≥ consecutive_timeout then 0 else e.consecutive
  let delay := min ((consecutive : ℚ) * delay_multiplier) max_delay
  let message_time := max e.lastTime now + delay
  (message_time, ⟨message_time, consecutive + 1⟩)

/-- Due-times produced by successive add_delayed calls for one target at the
clock times in nows. -/
def dueTimes (e : ThrottleEntry) : List ℚ → List ℚ
  | [] => []
  | now :: rest => (add_delayed e now).1 :: dueTimes (add_delayed e now).2 rest

/-- Five submissions to one target at the same clock time T, starting from
the idle default entry, produce due-times T, T+0.1, T+0.3, T+0.6, T+1.0:
each delay is min(consecutive * 0.1, 1.5) but it is added on top of
max(last due-time, now), so the offsets compound. -/
theorem dueTimes_five (T : ℚ) (hT : 5 ≤ T) :
    dueTimes ⟨0, 0⟩ [T, T, T, T, T] =
      [T, T + 1/10, T + 3/10, T + 3/5, T + 1] := by
  have h0 : (0 : ℚ) ≤ T := by linarith
  have e1 : add_delayed ⟨0, 0⟩ T = (T, ⟨T, 1⟩) := by
    simp only [add_delayed, consecutive_timeout, delay_multiplier, max_delay,
      ite_self]
    norm_num [max_eq_right h0]
  have e2 : add_delayed ⟨T, 1⟩ T = (T + 1/10, ⟨T + 1/10, 2⟩) := by
    simp only [add_delayed, consecutive_timeout, delay_multiplier, max_delay]
    rw [if_neg (by norm_num : ¬ T - T ≥ (5 : ℚ))]
    norm_num
  have e3 : add_delayed ⟨T + 1/10, 2⟩ T = (T + 3/10, ⟨T + 3/10, 3⟩) := by
    simp only [add_delayed, consecutive_timeout, delay_multiplier, max_delay]
    rw [if_neg (by norm_num : ¬ T - (T + 1/10) ≥ (5 : ℚ))]
    rw [max_eq_left (by linarith : T ≤ T + 1/10)]
    norm_num
    ring
  have e4 : add_delayed ⟨T + 3/10, 3⟩ T = (T + 3/5, ⟨T + 3/5, 4⟩) := by
    simp only [add_delayed, consecutive_timeout, delay_multiplier, max_delay]
    rw [if_neg (by norm_num : ¬ T - (T + 3/10) ≥ (5 : ℚ))]
    rw [max_eq_left (by linarith : T ≤ T + 3/10)]
    norm_num
    ring
  have e5 : add_delayed ⟨T + 3/5, 4⟩ T = (T + 1, ⟨T + 1, 5⟩) := by
    simp only [add_delayed, consecutive_timeout, delay_multiplier, max_delay]
    rw [if_neg (by norm_num : ¬ T - (T + 3/5) ≥ (5 : ℚ))]
    rw [max_eq_left (by linarith : T ≤ T + 3/5)]
    norm_num
    ring
  simp only [dueTimes, e1, e2, e3, e4, e5]

/-- C8 counterexample: five submissions at clock time 10, all within the
idle threshold of each other and starting from the idle default, do not
produce the claimed offsets 0, 0.1, 0.2, 0.3, 0.4 — the third due-time is
10 + 0.3, not 10 + 0.2. -/
theorem c8_cx_offsets :
    dueTimes ⟨0, 0⟩ [10, 10, 10, 10, 10] ≠
      [10, 10 + 1/10, 10 + 2/10, 10 + 3/10, 10 + 4/10] := by
  rw [dueTimes_five 10 (by norm_num)]
  simp only [List.cons.injEq, ne_eq, not_and]
  intro _ _ h
  norm_num at h

/-- C8 amended: five submissions to the same target at one clock time T,
starting from the idle default entry, produce non-decreasing due-times with
offsets 0, 0.1, 0.3, 0.6, 1.0 relative to the first: each per-send delay
min(consecutive * 0.1s, 1.5s) is added on top of the previous due-time. -/
theorem c8_rate_limit_offsets (T : ℚ) (hT : 5 ≤ T) :
    dueTimes ⟨0, 0⟩ [T, T, T, T, T] =
      [T, T + 1/10, T + 3/10, T + 3/5, T + 1] ∧
    List.Chain' (· ≤ ·) (dueTimes ⟨0, 0⟩ [T, T, T, T, T]) := by
  refine ⟨dueTimes_five T hT, ?_⟩
  rw [dueTimes_five T hT]
  simp only [List.chain'_cons, List.chain'_singleton]
  refine ⟨by linarith, by linarith, by linarith, by linarith, trivial⟩

/-- C8 witness: the amended statement at T = 10. -/
theorem c8_rate_limit_offsets_witness :
    dueTimes ⟨0, 0⟩ [10, 10, 10, 10, 10] =
      [10, 10 + 1/10, 10 + 3/10, 10 + 3/5, 10 + 1] ∧
    List.Chain' (· ≤ ·) (dueTimes ⟨0, 0⟩ [10, 10, 10, 10, 10]) :=
  c8_rate_limit_offsets 10 (by norm_num)

/-! ## pyrcb.py: event dispatch (IRCBot._handle) -/

/-- Argument list constructed by IRCBot._handle for one registered handler:
handler_args = [nickname] + args; if its length is below the handler's
required-parameter count nargs (recorded by get_required_args at
registration time), it is padded with None up to nargs.  Nothing is ever
truncated: Nat subtraction makes the padding empty when enough arguments
were supplied, exactly like the guarded += in the source. -/
def handler_args (nickname : Str) (args : List Str) (nargs : Nat) :
    List (Option Str) :=
  let base : List (Option Str) := some nickname :: args.map some
  base ++ List.replicate (nargs - base.length) none

/-- Result of dispatching one parsed message in _handle: the argument lists
passed to the handlers registered for the command (in registration order,
each handler abstracted to its recorded nargs), and the unconditional
on_raw notification carrying (nickname, command, args). -/
structure DispatchResult where
  calls : List (List (Option Str))
  raw : Str × Str × List Str
deriving DecidableEq, Repr

/-- Embedding of the dispatch step of IRCBot._handle. -/
def handleDispatch (handlers : List Nat) (nickname command : Str)
    (args : List Str) : DispatchResult :=
  { calls := handlers.map (handler_args nickname args),
    raw := (nickname, command, args) }

/-- C6 counterexample: a handler declaring a single parameter, dispatched
with a nickname and two positional arguments, receives all three supplied
values — not just the one it declares, as the claim states. -/
theorem c6_cx_no_truncation :
    (handler_args ("n".toList) [("a".toList), ("b".toList)] 1).length ≠ 1 ∧
    handler_args ("n".toList) [("a".toList), ("b".toList)] 1 =
      [some ("n".toList), some ("a".toList), some ("b".toList)] := by
  constructor
  · decide
  · rfl

/-- C6 amended: every handler receives all supplied arguments (origin plus
positional arguments) regardless of how few parameters it declares — a
handler declaring more required parameters than supplied gets the missing
positions filled with None — and the generic on_raw notification fires after
every dispatch with the full (origin, command, arguments) triple. -/
theorem c6_dispatch_arity :
    ∀ (nickname command : Str) (args : List Str) (nargs : Nat)
      (handlers : List Nat),
      (handler_args nickname args nargs).take (args.length + 1) =
        some nickname :: args.map some ∧
      (handler_args nickname args nargs).drop (args.length + 1) =
        List.replicate (nargs - (args.length + 1)) none ∧
      (handler_args nickname args nargs).length =
        max (args.length + 1) nargs ∧
      (handleDispatch handlers nickname command args).raw =
        (nickname, command, args) ∧
      (handleDispatch handlers nickname command args).calls =
        handlers.map (handler_args nickname args) := by
  intro nickname command args nargs handlers
  have hb : (some nickname :: args.map some : List (Option Str)).length =
      args.length + 1 := by
    simp
  refine ⟨?_, ?_, ?_, rfl, rfl⟩
  · show ((some nickname :: args.map some) ++
      List.replicate (nargs - (some nickname :: args.map some :
        List (Option Str)).length) none).take (args.length + 1) = _
    rw [← hb, List.take_left]
  · show ((some nickname :: args.map some) ++
      List.replicate (nargs - (some nickname :: args.map some :
        List (Option Str)).length) none).drop (args.length + 1) = _
    rw [← hb, List.drop_left, hb]
  · show ((some nickname :: args.map some) ++
      List.replicate (nargs - (some nickname :: args.map some :
        List (Option Str)).length) none).length = _
    rw [List.length_append, hb, List.length_replicate]
    rcases Nat.le_total (args.length + 1) nargs with h | h
    · rw [Nat.max_eq_right h]
      omega
    · rw [Nat.max_eq_left h]
      omega

/-! ## command.py: CommandRunner queue, epochs, callbacks -/

/-- One CommandRunner queue item: a job — command, callback and callback
arguments abstracted to a numeric job id — tagged with the epoch
(self.state) captured at enqueue time.  none is the sentinel pushed by
reset(). -/
abbrev RunnerItem := Option (Nat × Nat)

/-- CommandRunner state: the pending queue, the current epoch (self.state),
and the ordered log of job ids whose callback has been invoked. -/
structure RunnerState where
  queue : List RunnerItem
  state : Nat
  log : List Nat
deriving DecidableEq, Repr

/-- Actions on the runner: enqueue tags the job with the current epoch;
reset increments the epoch and pushes the sentinel; work is one iteration of
CommandRunner.loop — dequeue one item, and if it is not the sentinel and its
stored epoch still equals the current epoch, run the command and invoke the
callback (recorded in the log). -/
inductive RunnerAct where
  | enq (j : Nat)
  | reset
  | work
deriving DecidableEq, Repr

/-- One state transition of the runner. -/
def runnerStep (s : RunnerState) : RunnerAct → RunnerState
  | RunnerAct.enq j => { s with queue := s.queue ++ [some (j, s.state)] }
  | RunnerAct.reset =>
      { s with state := s.state + 1, queue := s.queue ++ [none] }
  | RunnerAct.work =>
      match s.queue with
      | [] => s
      | none :: rest => { s with queue := rest }
      | some (j, tag) :: rest =>
          { s with queue := rest,
                   log := if tag = s.state then s.log ++ [j] else s.log }

/-- Execution of a list of actions from a given state. -/
def runFrom (s : RunnerState) (acts : List RunnerAct) : RunnerState :=
  acts.foldl runnerStep s

/-- Execution of a list of actions from the initial runner state. -/
def runScript (acts : List RunnerAct) : RunnerState :=
  runFrom { queue := [], state := 0, log := [] } acts

/-- Number of queued (non-sentinel) items carrying job id j. -/
def queueCount (j : Nat) (q : List RunnerItem) : Nat :=
  q.countP fun it =>
    match it with
    | some (i, _) => i == j
    | none => false

/-- Number of enqueue actions for job id j in a script. -/
def enqCount (j : Nat) (acts : List RunnerAct) : Nat :=
  acts.countP fun a =>
    match a with
    | RunnerAct.enq i => i == j
    | _ => false

theorem runner_count_invariant (j : Nat) :
    ∀ (acts : List RunnerAct) (s : RunnerState),
      (runFrom s acts).log.count j + queueCount j (runFrom s acts).queue ≤
        s.log.count j + queueCount j s.queue + enqCount j acts := by
  intro acts
  induction acts with
  | nil =>
      intro s
      simp [runFrom, enqCount]
  | cons a rest ih =>
      intro s
      rw [show runFrom s (a :: rest) = runFrom (runnerStep s a) rest from rfl]
      refine le_trans (ih (runnerStep s a)) ?_
      rcases a with j' | _ | _
      · by_cases hj : j' = j
        · subst hj
          simp [runnerStep, queueCount, enqCount, List.countP_append,
            List.countP_cons]
          omega
        · simp [runnerStep, queueCount, enqCount, List.countP_append,
            List.countP_cons, hj]
      · simp [runnerStep, queueCount, enqCount, List.countP_append,
          List.countP_cons]
      · rcases hq : s.queue with _ | ⟨it, rest'⟩
        · simp [runnerStep, hq, enqCount, List.countP_cons]
        · rcases it with _ | ⟨i, tag⟩
          · simp [runnerStep, hq, queueCount, enqCount, List.countP_cons]
          · by_cases htag : tag = s.state
            · by_cases hij : i = j
              · subst hij
                simp [runnerStep, hq, htag, queueCount, enqCount,
                  List.countP_cons, List.count_append, List.count_cons]
                omega
              · simp [runnerStep, hq, htag, queueCount, enqCount,
                  List.countP_cons, List.count_append, List.count_cons, hij]
            · by_cases hij : i = j
              · subst hij
                simp [runnerStep, hq, htag, queueCount, enqCount,
                  List.countP_cons]
              · simp [runnerStep, hq, htag, queueCount, enqCount,
                  List.countP_cons, hij]

/-- All queued items carry an epoch no newer than the current one. -/
def TagsLe (s : RunnerState) : Prop :=
  ∀ j t, some (j, t) ∈ s.queue → t ≤ s.state

theorem tagsLe_step (s : RunnerState) (a : RunnerAct) (h : TagsLe s) :
    TagsLe (runnerStep s a) := by
  rcases a with j' | _ | _
  · intro j t hm
    simp only [runnerStep, List.mem_append, List.mem_singleton,
      Option.some.injEq, Prod.mk.injEq] at hm
    rcases hm with hm | ⟨_, ht⟩
    · exact h j t hm
    · simp [runnerStep, ht]
  · intro j t hm
    simp only [runnerStep, List.mem_append, List.mem_singleton] at hm
    rcases hm with hm | hm
    · have := h j t hm
      simp only [runnerStep]
      omega
    · exact absurd hm (by simp)
  · intro j t hm
    rcases hq : s.queue with _ | ⟨it, rest'⟩
    · simp only [runnerStep, hq] at hm ⊢
      exact h j t (by rw [hq]; exact hm)
    · rcases it with _ | ⟨i, tag⟩
      · simp only [runnerStep, hq] at hm ⊢
        exact h j t (by rw [hq]; exact List.mem_cons_of_mem _ hm)
      · simp only [runnerStep, hq] at hm ⊢
        exact h j t (by rw [hq]; exact List.mem_cons_of_mem _ hm)

theorem tagsLe_runFrom (acts : List RunnerAct) :
    ∀ s : RunnerState, TagsLe s → TagsLe (runFrom s acts) := by
  induction acts with
  | nil => intro s h; exact h
  | cons a rest ih =>
      intro s h
      exact ih (runnerStep s a) (tagsLe_step s a h)

/-- Job id j can no longer reach the log: it is not logged yet and every
queued occurrence carries a stale epoch. -/
def DeadFor (j : Nat) (s : RunnerState) : Prop :=
  j ∉ s.log ∧ ∀ t, some (j, t) ∈ s.queue → t < s.state

theorem deadFor_step (j : Nat) (s : RunnerState) (a : RunnerAct)
    (ha : a ≠ RunnerAct.enq j) (h : DeadFor j s) : DeadFor j (runnerStep s a) := by
  obtain ⟨hlog, hqueue⟩ := h
  rcases a with j' | _ | _
  · have hj : j' ≠ j := fun hc => ha (by rw [hc])
    constructor
    · simpa [runnerStep] using hlog
    · intro t hm
      simp only [runnerStep, List.mem_append, List.mem_singleton,
        Option.some.injEq, Prod.mk.injEq] at hm
      rcases hm with hm | ⟨hji, _⟩
      · simpa [runnerStep] using hqueue t hm
      · exact absurd hji.symm hj
  · constructor
    · simpa [runnerStep] using hlog
    · intro t hm
      simp only [runnerStep, List.mem_append, List.mem_singleton] at hm
      rcases hm with hm | hm
      · have := hqueue t hm
        simp only [runnerStep]
        omega
      · exact absurd hm (by simp)
  · rcases hq : s.queue with _ | ⟨it, rest'⟩
    · constructor
      · simpa [runnerStep, hq] using hlog
      · intro t hm
        simp only [runnerStep, hq] at hm
        simp only [runnerStep, hq]
        exact hqueue t (by rw [hq]; exact hm)
    · rcases it with _ | ⟨i, tag⟩
      · constructor
        · simpa [runnerStep, hq] using hlog
        · intro t hm
          simp only [runnerStep, hq] at hm
          simp only [runnerStep, hq]
          exact hqueue t (by rw [hq]; exact List.mem_cons_of_mem _ hm)
      · constructor
        · by_cases htag : tag = s.state
          · have hi : i ≠ j := by
              intro hij
              subst hij
              have := hqueue tag (by rw [hq]; exact List.mem_cons_self _ _)
              omega
            simp only [runnerStep, hq, htag, List.mem_append,
              List.mem_singleton, ite_true, if_true, eq_self_iff_true]
            rintro (hc | hc)
            · exact hlog hc
            · exact hi hc.symm
          · simpa [runnerStep, hq, htag] using hlog
        · intro t hm
          simp only [runnerStep, hq] at hm
          simp only [runnerStep, hq]
          exact hqueue t (by rw [hq]; exact List.mem_cons_of_mem _ hm)

theorem deadFor_runFrom (j : Nat) (acts : List RunnerAct) :
    (∀ a ∈ acts, a ≠ RunnerAct.enq j) →
    ∀ s : RunnerState, DeadFor j s → DeadFor j (runFrom s acts) := by
  induction acts with
  | nil => intro _ s h; exact h
  | cons a rest ih =>
      intro hacts s h
      exact ih (fun b hb => hacts b (List.mem_cons_of_mem a hb))
        (runnerStep s a) (deadFor_step j s a (hacts a (List.mem_cons_self a rest)) h)

/-- C7: each execution job's callback is invoked at most once (the log never
records a job id more times than it was enqueued), and a job that is still
queued and unlogged when reset() increments the epoch never has its callback
invoked afterwards (unless re-enqueued): the callback fires only while the
stored epoch still equals the runner's current epoch. -/
theorem c7_epoch_cancellation :
    (∀ (acts : List RunnerAct) (j : Nat), enqCount j acts ≤ 1 →
      (runScript acts).log.count j ≤ 1) ∧
    (∀ (xs ys : List RunnerAct) (j t : Nat),
      some (j, t) ∈ (runScript xs).queue →
      j ∉ (runScript xs).log →
      (∀ a ∈ ys, a ≠ RunnerAct.enq j) →
      j ∉ (runScript (xs ++ RunnerAct.reset :: ys)).log) := by
  constructor
  · intro acts j h
    have hinv := runner_count_invariant j acts { queue := [], state := 0, log := [] }
    simp only [runScript] at *
    simp only [queueCount, List.count_nil, List.countP_nil] at hinv
    omega
  · intro xs ys j t _ hl hys
    have h1 : TagsLe (runScript xs) := by
      apply tagsLe_runFrom
      intro j' t' hm
      simp at hm
    have h2 : DeadFor j (runnerStep (runScript xs) RunnerAct.reset) := by
      constructor
      · simpa [runnerStep] using hl
      · intro t' hm
        simp only [runnerStep, List.mem_append, List.mem_singleton] at hm
        rcases hm with hm | hm
        · have := h1 j t' hm
          simp only [runnerStep]
          omega
        · exact absurd hm (by simp)
    have h3 : DeadFor j (runFrom (runnerStep (runScript xs) RunnerAct.reset) ys) :=
      deadFor_runFrom j ys hys _ h2
    have hsplit : runScript (xs ++ RunnerAct.reset :: ys) =
        runFrom (runnerStep (runScript xs) RunnerAct.reset) ys := by
      simp [runScript, runFrom, List.foldl_append]
    rw [hsplit]
    exact h3.1

/-- C7 witness: the at-most-once bound for a job that is enqueued once and
executed, and the cancellation guarantee for a job enqueued and then
invalidated by reset() before the worker dequeues it. -/
theorem c7_epoch_cancellation_witness :
    (runScript [RunnerAct.enq 7, RunnerAct.work]).log.count 7 ≤ 1 ∧
    5 ∉ (runScript ([RunnerAct.enq 5] ++ RunnerAct.reset :: [RunnerAct.work])).log :=
  ⟨c7_epoch_cancellation.1 [RunnerAct.enq 7, RunnerAct.work] 7 (by decide),
   c7_epoch_cancellation.2 [RunnerAct.enq 5] [RunnerAct.work] 5 0
     (by decide) (by decide) (by decide)⟩

/-! ## pyrcb.py: the message codec (IRCBot.format and IRCBot.parse) -/

/-- The character class [a-zA-Z0-9] of format's command regex. -/
def isAlnumAscii (c : Char) : Bool :=
  ('a' ≤ c && c ≤ 'z') || ('A' ≤ c && c ≤ 'Z') || ('0' ≤ c && c ≤ '9')

/-- The character class [^\0\r\n] of format's argument regex. -/
def isArgChar (c : Char) : Bool :=
  !(c == '\x00' || c == '\r' || c == '\n')

/-- Python re.match of an anchored one-class regex ^[class]+$ against s.
Because $ in Python also matches just before a newline that ends the string,
the match succeeds on a nonempty all-class string, or on a nonempty
all-class string followed by one final LF. -/
def reDollarAll (p : Char → Bool) (s : Str) : Bool :=
  (!s.isEmpty && s.all p) ||
  (s.getLast? == some '\n' && !s.dropLast.isEmpty && s.dropLast.all p)

/-- The assignment args[-1] = ":" + args[-1] performed by format when
arguments are present. -/
def markLast : List Str → List Str
  | [] => []
  | [a] => [':' :: a]
  | a :: rest => a :: markLast rest

/-- Python " ".join. -/
def joinSpace : List Str → Str
  | [] => []
  | [x] => x
  | x :: xs => x ++ ' ' :: joinSpace xs

/-- Embedding of IRCBot.format: the source's validation checks in order —
no empty command or argument, command matching ^[a-zA-Z0-9]+$, every
argument matching ^[^\0\r\n]+$, no non-last argument starting with a colon,
no non-last argument containing a space — then the last argument is
prefixed with a colon and everything is joined with single spaces.  A
ValueError is modelled as none. -/
def format (command : Str) (args : List Str) : Option Str :=
  if (args ++ [command]).any List.isEmpty then none
  else if !reDollarAll isAlnumAscii command then none
  else if !args.all (reDollarAll isArgChar) then none
  else if args.dropLast.any (fun a => a.head? == some ':') then none
  else if args.dropLast.any (fun a => a.contains ' ') then none
  else some (joinSpace (command :: markLast args))

/-- Origin of a parsed message, as built by parse: Nickname(nick,
username=user, hostname=host), with non-participating groups defaulted to
the empty string by match.groups(""). -/
structure Nickname where
  nick : Str
  username : Str
  hostname : Str
deriving DecidableEq, Repr

/-- Longest prefix matching [^ ]* (any character but a space, newlines
included), with the remaining input. -/
def takeNonSpace : Str → Str × Str
  | [] => ([], [])
  | c :: cs =>
      if c = ' ' then ([], c :: cs)
      else
        let r := takeNonSpace cs
        (c :: r.1, r.2)

/-- The characters a greedy (.*) consumes: everything up to a newline,
since '.' does not match LF. -/
def takeNoNewline (s : Str) : Str := s.takeWhile (· != '\n')

/-- The middle-argument group (?:\ [^: ][^ ]*){0,14} of the parse regex:
greedily consume up to n repetitions of a space followed by a token that
starts with neither a colon nor a space; returns the raw captured
characters and the remaining input. -/
def middleCapture : Nat → Str → Str × Str
  | 0, rest => ([], rest)
  | Nat.succ n, rest =>
      match rest with
      | ' ' :: c :: cs =>
          if c = ':' ∨ c = ' ' then ([], ' ' :: c :: cs)
          else
            let t := takeNonSpace (c :: cs)
            let r := middleCapture n t.2
            (' ' :: (t.1 ++ r.1), r.2)
      | other => ([], other)

/-- The trailing group (?:\ :?(.*))? of the parse regex: if the rest begins
with a space, the space is consumed, one leading colon is dropped if
present, and everything up to a newline is captured; none models a
non-participating group. -/
def trailingCapture : Str → Option Str
  | ' ' :: rest =>
      match rest with
      | ':' :: r => some (takeNoNewline r)
      | r => some (takeNoNewline r)
  | _ => none

/-- The whitespace characters on which Python str.split() with no separator
breaks: ASCII whitespace, the C0 separators 1c-1f, and the Unicode
White_Space code points. -/
def isPySpace (c : Char) : Bool :=
  c == '\t' || c == '\n' || c == '\x0b' || c == '\x0c' || c == '\r' ||
  c == '\x1c' || c == '\x1d' || c == '\x1e' || c == '\x1f' || c == ' ' ||
  c == '\x85' || c == '\xa0' || c == Char.ofNat 0x1680 ||
  (Char.ofNat 0x2000 ≤ c && c ≤ Char.ofNat 0x200a) ||
  c == Char.ofNat 0x2028 || c == Char.ofNat 0x2029 ||
  c == Char.ofNat 0x202f || c == Char.ofNat 0x205f || c == Char.ofNat 0x3000

/-- Helper for pySplit: accumulates the current word in reverse. -/
def pySplitAux : Str → Str → List Str
  | [], acc => if acc.isEmpty then [] else [acc.reverse]
  | c :: rest, acc =>
      if isPySpace c then
        if acc.isEmpty then pySplitAux rest []
        else acc.reverse :: pySplitAux rest []
      else pySplitAux rest (c :: acc)

/-- Python str.split() with no separator: maximal runs of non-whitespace
characters, whitespace discarded. -/
def pySplit (s : Str) : List Str := pySplitAux s []

/-- The part of the message grammar after the optional origin: the command
token ([^ ]+), the middle-argument capture, and the trailing capture
(defaulted to the empty string as match.groups("") does).  Fails exactly
when no command token is present, i.e. the input is empty or starts with a
space. -/
def parseAfterOrigin (rest : Str) : Option (Str × Str × Str) :=
  match rest with
  | [] => none
  | c :: cs =>
      if c = ' ' then none
      else
        let t := takeNonSpace (c :: cs)
        let m := middleCapture 14 t.2
        some (t.1, m.1, (trailingCapture m.2).getD [])

/-- Lazy host scan for @(.*?)[ ] followed by the message body: the shortest
newline-free host (spaces allowed) after which a space and a parseable body
follow, exactly as Python's backtracking engine explores it. -/
def tryHost : Str → Option (Str × (Str × Str × Str))
  | [] => none
  | c :: rest =>
      if c = ' ' then
        match parseAfterOrigin rest with
        | some b => some ([], b)
        | none =>
            match tryHost rest with
            | some (h, b) => some (c :: h, b)
            | none => none
      else if c = '\n' then none
      else
        match tryHost rest with
        | some (h, b) => some (c :: h, b)
        | none => none

/-- Lazy user scan for !(.*?) followed by @host: the shortest newline-free
user after which an @ begins a successful host scan. -/
def tryUser : Str → Option (Str × Str × (Str × Str × Str))
  | [] => none
  | c :: rest =>
      if c = '@' then
        match tryHost rest with
        | some (h, b) => some ([], h, b)
        | none =>
            match tryUser rest with
            | some (u, h, b) => some (c :: u, h, b)
            | none => none
      else if c = '\n' then none
      else
        match tryUser rest with
        | some (u, h, b) => some (c :: u, h, b)
        | none => none

/-- The alternatives after a candidate nickname, in the regex engine's
order: the user-host group starting with !user, the same group with only
the @host part, or the group matching empty directly before the closing
space.  Absent groups default to the empty string. -/
def tryAfterNick (s : Str) : Option (Str × Str × (Str × Str × Str)) :=
  (match s with
   | '!' :: rest => tryUser rest
   | _ => none) <|>
  (match s with
   | '@' :: rest =>
       match tryHost rest with
       | some (h, b) => some ([], h, b)
       | none => none
   | _ => none) <|>
  (match s with
   | ' ' :: rest =>
       match parseAfterOrigin rest with
       | some b => some ([], [], b)
       | none => none
   | _ => none)

/-- Lazy nickname scan of the origin alternative: starting right after the
leading colon, try the continuation at each position, extending the
newline-free nickname one character at a time. -/
def tryNick : Str → Option (Str × Str × Str × (Str × Str × Str))
  | [] => none
  | c :: rest =>
      match tryAfterNick (c :: rest) with
      | some (u, h, b) => some ([], u, h, b)
      | none =>
          if c = '\n' then none
          else
            match tryNick rest with
            | some (n, u, h, b) => some (c :: n, u, h, b)
            | none => none

/-- Argument assembly in parse: args = capture.split(), and a nonempty
trailing argument is appended. -/
def assembleArgs (capture trailing : Str) : List Str :=
  pySplit capture ++ (if trailing.isEmpty then [] else [trailing])

/-- The empty-origin reading of a message. -/
def parseNoOrigin (m : Str) : Option (Nickname × Str × List Str) :=
  match parseAfterOrigin m with
  | some (cmd, cap, tr) => some (⟨[], [], []⟩, cmd, assembleArgs cap tr)
  | none => none

/-- Embedding of IRCBot.parse: the anchored message regex with a lazily
matched optional origin prefix, a command token, up to 14 middle arguments
and an optional trailing argument, in Python's backtracking order (origin
alternatives first, the empty origin as fallback).  A line the regex cannot
match makes match.groups raise AttributeError in the source; that failure
is modelled as none. -/
def parse (m : Str) : Option (Nickname × Str × List Str) :=
  match m with
  | [] => none
  | c :: rest =>
      if c = ':' then
        (match tryNick rest with
         | some (n, u, h, cmd, cap, tr) =>
             some (⟨n, u, h⟩, cmd, assembleArgs cap tr)
         | none => none) <|> parseNoOrigin (c :: rest)
      else parseNoOrigin (c :: rest)

/-- The (command, arguments) part of a parse result, the pair the
round-trip law speaks about. -/
def parseCmdArgs (m : Str) : Option (Str × List Str) :=
  (parse m).map fun r => (r.2.1, r.2.2)

/-- The listen loop (_listen plus _handle) over a list of inbound lines:
lines are parsed and dispatched in order; a line that parse cannot tokenize
raises AttributeError, which propagates and ends the loop, leaving later
lines unprocessed.  Returns the successfully dispatched messages and the
line, if any, whose parse failure aborted the loop. -/
def listenLoop : List Str → List (Nickname × Str × List Str) × Option Str
  | [] => ([], none)
  | l :: ls =>
      match parse l with
      | some msg =>
          let r := listenLoop ls
          (msg :: r.1, r.2)
      | none => ([], some l)
/-- Characterization of the anchored one-class Python regex match: it accepts
exactly the nonempty all-class strings, possibly followed by one final LF
(the $ quirk). -/
theorem reDollarAll_iff (p : Char → Bool) (s : Str) :
    reDollarAll p s = true ↔
      (s ≠ [] ∧ ∀ c ∈ s, p c = true) ∨
      (∃ core, s = core ++ ['\n'] ∧ core ≠ [] ∧ ∀ c ∈ core, p c = true) := by
  have hie : ∀ l : Str, l.isEmpty = false ↔ l ≠ [] := by
    intro l
    cases l <;> simp
  unfold reDollarAll
  simp only [Bool.or_eq_true, Bool.and_eq_true, beq_iff_eq,
    List.all_eq_true, Bool.not_eq_true', hie]
  constructor
  · rintro (⟨hne, hall⟩ | ⟨⟨hlast, hne⟩, hall⟩)
    · exact Or.inl ⟨hne, hall⟩
    · exact Or.inr ⟨s.dropLast,
        (List.dropLast_append_getLast? '\n' (by rw [hlast]; rfl)).symm, hne, hall⟩
  · rintro (⟨hne, hall⟩ | ⟨core, rfl, hne, hall⟩)
    · exact Or.inl ⟨hne, hall⟩
    · refine Or.inr ⟨⟨?_, ?_⟩, ?_⟩
      · rw [List.getLast?_concat]
      · rw [List.dropLast_concat]
        exact hne
      · rw [List.dropLast_concat]
        exact hall

/-- Spec-level reading of the anchored match: a nonempty string of class
characters, or such a string followed by a single final LF. -/
def PyReOk (p : Char → Bool) (s : Str) : Prop :=
  (s ≠ [] ∧ ∀ c ∈ s, p c = true) ∨
  (∃ core, s = core ++ ['\n'] ∧ core ≠ [] ∧ ∀ c ∈ core, p c = true)

/-- Bridge: format fails exactly when one of its five source checks fires. -/
theorem format_eq_none_iff (command : Str) (args : List Str) :
    format command args = none ↔
      ((args ++ [command]).any List.isEmpty = true ∨
       reDollarAll isAlnumAscii command = false ∨
       args.all (reDollarAll isArgChar) = false ∨
       args.dropLast.any (fun a => a.head? == some ':') = true ∨
       args.dropLast.any (fun a => a.contains ' ') = true) := by
  unfold format
  split_ifs with h1 h2 h3 h4 h5 <;> simp_all

/-- C4 amended: format raises a validation error if and only if some entry is
empty, the command has a character outside ASCII alphanumerics (with a single
final LF tolerated by Python's $ anchor), some argument contains NUL, CR or
LF other than as a single final LF, or a non-last argument starts with a
colon or contains a space.  The claim's condition list is wrong in both
directions: a non-alphanumeric command such as "A!" raises although no listed
condition holds, and an argument ending in exactly one LF does not raise
although the claim's "contains LF" condition holds. -/
theorem c4_format_error_iff (command : Str) (args : List Str) :
    format command args = none ↔
      (¬ PyReOk isAlnumAscii command ∨
       (∃ a ∈ args, ¬ PyReOk isArgChar a) ∨
       (∃ a ∈ args.dropLast, a.head? = some ':' ∨ ' ' ∈ a)) := by
  rw [format_eq_none_iff]
  have hcmd : reDollarAll isAlnumAscii command = false ↔
      ¬ PyReOk isAlnumAscii command := by
    rw [Bool.eq_false_iff, ne_eq, reDollarAll_iff]
    rfl
  have harg : ∀ a : Str, reDollarAll isArgChar a = false ↔
      ¬ PyReOk isArgChar a := by
    intro a
    rw [Bool.eq_false_iff, ne_eq, reDollarAll_iff]
    rfl
  have hall : args.all (reDollarAll isArgChar) = false ↔
      ∃ a ∈ args, ¬ PyReOk isArgChar a := by
    rw [show (args.all (reDollarAll isArgChar) = false ↔
      ∃ a ∈ args, reDollarAll isArgChar a = false) from by
        simp [List.all_eq_true]]
    exact exists_congr fun a => and_congr_right fun _ => harg a
  have hD : args.dropLast.any (fun a => a.head? == some ':') = true ↔
      ∃ a ∈ args.dropLast, a.head? = some ':' := by
    simp [List.any_eq_true]
  have hE : args.dropLast.any (fun a => a.contains ' ') = true ↔
      ∃ a ∈ args.dropLast, ' ' ∈ a := by
    simp [List.any_eq_true]
  have hempty_cmd : command = [] → ¬ PyReOk isAlnumAscii command := by
    rintro rfl (⟨hne, _⟩ | ⟨core, hceq, _, _⟩)
    · exact hne rfl
    · exact absurd hceq.symm (List.append_ne_nil_of_right_ne_nil core (by simp))
  have hempty_arg : ∀ a : Str, a = [] → ¬ PyReOk isArgChar a := by
    rintro a rfl (⟨hne, _⟩ | ⟨core, hceq, _, _⟩)
    · exact hne rfl
    · exact absurd hceq.symm (List.append_ne_nil_of_right_ne_nil core (by simp))
  constructor
  · rintro (h | h | h | h | h)
    · simp only [List.any_append, Bool.or_eq_true, List.any_eq_true,
        List.isEmpty_iff] at h
      rcases h with ⟨a, ha, haE⟩ | ⟨a, ha, haE⟩
      · exact Or.inr (Or.inl ⟨a, ha, hempty_arg a haE⟩)
      · rcases List.mem_singleton.mp ha with rfl
        exact Or.inl (hempty_cmd haE)
    · exact Or.inl (hcmd.mp h)
    · exact Or.inr (Or.inl (hall.mp h))
    · rcases hD.mp h with ⟨a, ha, hc⟩
      exact Or.inr (Or.inr ⟨a, ha, Or.inl hc⟩)
    · rcases hE.mp h with ⟨a, ha, hs⟩
      exact Or.inr (Or.inr ⟨a, ha, Or.inr hs⟩)
  · rintro (h | h | h)
    · exact Or.inr (Or.inl (hcmd.mpr h))
    · exact Or.inr (Or.inr (Or.inl (hall.mpr h)))
    · rcases h with ⟨a, ha, hc | hs⟩
      · exact Or.inr (Or.inr (Or.inr (Or.inl (hD.mpr ⟨a, ha, hc⟩))))
      · exact Or.inr (Or.inr (Or.inr (Or.inr (hE.mpr ⟨a, ha, hs⟩))))

/-- Wire rendering of the middle arguments: a space before each. -/
def renderMids : List Str → Str
  | [] => []
  | a :: rest => ' ' :: (a ++ renderMids rest)

/-- takeNonSpace splits a space-free token from a rest that is empty or
begins with a space. -/
theorem takeNonSpace_append (t rest : Str) (ht : ∀ c ∈ t, c ≠ ' ')
    (hr : rest = [] ∨ ∃ r, rest = ' ' :: r) :
    takeNonSpace (t ++ rest) = (t, rest) := by
  induction t with
  | nil =>
      rcases hr with rfl | ⟨r, rfl⟩
      · rfl
      · simp [takeNonSpace]
  | cons c t ih =>
      have hc : c ≠ ' ' := ht c (List.mem_cons_self c t)
      simp only [List.cons_append, takeNonSpace, if_neg hc, List.append_eq,
        ih (fun d hd => ht d (List.mem_cons_of_mem c hd))]

/-- Joining with spaces prefixes each later element with one space. -/
theorem joinSpace_cons (x : Str) (xs : List Str) :
    joinSpace (x :: xs) = x ++ renderMids xs := by
  induction xs generalizing x with
  | nil => simp [joinSpace, renderMids]
  | cons y ys ih =>
      show x ++ ' ' :: joinSpace (y :: ys) = _
      rw [ih y, renderMids]

/-- markLast prefixes exactly the final argument with a colon. -/
theorem markLast_concat (mids : List Str) (last : Str) :
    markLast (mids ++ [last]) = mids ++ [':' :: last] := by
  induction mids with
  | nil => rfl
  | cons a rest ih =>
      cases rest with
      | nil => rfl
      | cons b t =>
          show a :: markLast ((b :: t) ++ [last]) = _
          rw [ih]
          rfl

/-- Rendering distributes over append. -/
theorem renderMids_append (xs ys : List Str) :
    renderMids (xs ++ ys) = renderMids xs ++ renderMids ys := by
  induction xs with
  | nil => rfl
  | cons a rest ih =>
      show ' ' :: (a ++ renderMids (rest ++ ys)) = _
      rw [ih]
      simp [renderMids]

/-- A rendered middle section followed by such a tail is empty or begins
with a space. -/
theorem renderMids_tail_shape (rest : List Str) (tail : Str)
    (htail : tail = [] ∨ ∃ r, tail = ' ' :: r) :
    renderMids rest ++ tail = [] ∨ ∃ r, renderMids rest ++ tail = ' ' :: r := by
  cases rest with
  | nil =>
      rcases htail with rfl | ⟨r, rfl⟩
      · exact Or.inl rfl
      · exact Or.inr ⟨r, rfl⟩
  | cons a t => exact Or.inr ⟨(a ++ renderMids t) ++ tail, rfl⟩

/-- The middle-argument group consumes exactly the rendered middle
arguments when they are nonempty, space-free and do not begin with a colon,
and the remaining input is the trailing section. -/
theorem middleCapture_renders :
    ∀ (mids : List Str) (n : Nat) (tail : Str),
      mids.length ≤ n →
      (∀ a ∈ mids, a ≠ []) →
      (∀ a ∈ mids, ∀ c ∈ a, c ≠ ' ') →
      (∀ a ∈ mids, a.head? ≠ some ':') →
      (tail = [] ∨ ∃ r, tail = ' ' :: ':' :: r) →
      middleCapture n (renderMids mids ++ tail) = (renderMids mids, tail) := by
  intro mids
  induction mids with
  | nil =>
      intro n tail _ _ _ _ htail
      rcases htail with rfl | ⟨r, rfl⟩
      · cases n <;> rfl
      · cases n with
        | zero => rfl
        | succ n => simp [renderMids, middleCapture]
  | cons a rest ih =>
      intro n tail hn hne hsp hcol htail
      rcases a with _ | ⟨c, a'⟩
      · exact absurd rfl (hne [] (List.mem_cons_self _ _))
      have hc : ¬ (c = ':' ∨ c = ' ') := by
        rintro (rfl | rfl)
        · exact hcol (':' :: a') (List.mem_cons_self _ _) rfl
        · exact hsp (' ' :: a') (List.mem_cons_self _ _) ' '
            (List.mem_cons_self _ _) rfl
      rcases n with _ | n
      · simp at hn
      have hshape : renderMids ((c :: a') :: rest) ++ tail =
          ' ' :: c :: (a' ++ (renderMids rest ++ tail)) := by
        show ' ' :: ((c :: a') ++ renderMids rest) ++ tail = _
        simp
      rw [hshape]
      show (if c = ':' ∨ c = ' ' then ([], ' ' :: c :: (a' ++ (renderMids rest ++ tail)))
        else
          let t := takeNonSpace (c :: (a' ++ (renderMids rest ++ tail)))
          let r := middleCapture n t.2
          (' ' :: (t.1 ++ r.1), r.2)) = _
      rw [if_neg hc]
      have htns : takeNonSpace ((c :: a') ++ (renderMids rest ++ tail)) =
          (c :: a', renderMids rest ++ tail) := by
        apply takeNonSpace_append
        · exact hsp (c :: a') (List.mem_cons_self _ _)
        · exact renderMids_tail_shape rest tail
            (by rcases htail with rfl | ⟨r, rfl⟩
                · exact Or.inl rfl
                · exact Or.inr ⟨':' :: r, rfl⟩)
      rw [show (c :: (a' ++ (renderMids rest ++ tail))) =
        ((c :: a') ++ (renderMids rest ++ tail)) from by simp]
      rw [htns]
      have hrec := ih n tail (by simpa using hn)
        (fun b hb => hne b (List.mem_cons_of_mem _ hb))
        (fun b hb => hsp b (List.mem_cons_of_mem _ hb))
        (fun b hb => hcol b (List.mem_cons_of_mem _ hb)) htail
      simp only [hrec]
      show (' ' :: ((c :: a') ++ renderMids rest), tail) = _
      rw [show renderMids ((c :: a') :: rest) =
        ' ' :: ((c :: a') ++ renderMids rest) from rfl]

/-- pySplitAux accumulates a whitespace-free word unchanged. -/
theorem pySplitAux_word (w : Str) (s acc : Str)
    (hw : ∀ c ∈ w, isPySpace c = false) :
    pySplitAux (w ++ s) acc = pySplitAux s (w.reverse ++ acc) := by
  induction w generalizing acc with
  | nil => simp
  | cons c w' ih =>
      have hc : ¬ isPySpace c = true := by
        simp [hw c (List.mem_cons_self _ _)]
      show pySplitAux (c :: (w' ++ s)) acc = _
      rw [show pySplitAux (c :: (w' ++ s)) acc =
        (if isPySpace c then
          (if acc.isEmpty then pySplitAux (w' ++ s) []
           else acc.reverse :: pySplitAux (w' ++ s) [])
         else pySplitAux (w' ++ s) (c :: acc)) from rfl]
      rw [if_neg hc]
      rw [ih (c :: acc) (fun d hd => hw d (List.mem_cons_of_mem c hd))]
      congr 1
      simp

/-- pySplitAux recovers the middle arguments from their rendering when they
are nonempty and contain no Python whitespace. -/
theorem pySplitAux_renderMids :
    ∀ (mids : List Str),
      (∀ a ∈ mids, a ≠ []) →
      (∀ a ∈ mids, ∀ c ∈ a, isPySpace c = false) →
      ∀ acc : Str, pySplitAux (renderMids mids) acc =
        (if acc.isEmpty then [] else [acc.reverse]) ++ mids := by
  intro mids
  induction mids with
  | nil =>
      intro _ _ acc
      show (if acc.isEmpty then [] else [acc.reverse]) = _
      simp
  | cons a rest ih =>
      intro hne hsp acc
      show pySplitAux (' ' :: (a ++ renderMids rest)) acc = _
      rw [show pySplitAux (' ' :: (a ++ renderMids rest)) acc =
        (if isPySpace ' ' then
          (if acc.isEmpty then pySplitAux (a ++ renderMids rest) []
           else acc.reverse :: pySplitAux (a ++ renderMids rest) [])
         else pySplitAux (a ++ renderMids rest) (' ' :: acc)) from rfl]
      rw [if_pos (show isPySpace ' ' = true from by decide)]
      have hword : pySplitAux (a ++ renderMids rest) [] = a :: rest := by
        rw [pySplitAux_word a _ [] (hsp a (List.mem_cons_self _ _))]
        rw [List.append_nil]
        rw [ih (fun b hb => hne b (List.mem_cons_of_mem a hb))
          (fun b hb => hsp b (List.mem_cons_of_mem a hb)) a.reverse]
        rw [if_neg (by
          simp [List.isEmpty_iff]
          exact hne a (List.mem_cons_self _ _))]
        simp
      by_cases hacc : acc.isEmpty
      · simp [hacc, hword]
      · simp [hacc, hword]

/-- str.split() recovers the middle arguments from their rendering. -/
theorem pySplit_renderMids (mids : List Str)
    (hne : ∀ a ∈ mids, a ≠ [])
    (hsp : ∀ a ∈ mids, ∀ c ∈ a, isPySpace c = false) :
    pySplit (renderMids mids) = mids := by
  unfold pySplit
  rw [pySplitAux_renderMids mids hne hsp []]
  rfl

/-- A greedy (.*) captures a newline-free string whole. -/
theorem takeNoNewline_eq (s : Str) (h : ∀ c ∈ s, c ≠ '\n') :
    takeNoNewline s = s := by
  induction s with
  | nil => rfl
  | cons c t ih =>
      unfold takeNoNewline
      rw [List.takeWhile_cons_of_pos]
      · rw [show (List.takeWhile (fun x => x != '\n') t : Str) =
          takeNoNewline t from rfl,
          ih (fun d hd => h d (List.mem_cons_of_mem c hd))]
      · simp [h c (List.mem_cons_self _ _)]

/-- An ASCII alphanumeric character is neither a colon nor a space. -/
theorem isAlnumAscii_ne (c : Char) (h : isAlnumAscii c = true) :
    c ≠ ':' ∧ c ≠ ' ' := by
  constructor
  · rintro rfl
    simp [isAlnumAscii] at h
  · rintro rfl
    simp [isAlnumAscii] at h

/-- On a line that does not begin with a colon, parse takes the
empty-origin reading. -/
theorem parse_eq_noOrigin (c : Char) (t : Str) (h : c ≠ ':') :
    parse (c :: t) = parseNoOrigin (c :: t) := by
  show (if c = ':' then
    (match tryNick t with
     | some (n, u, h, cmd, cap, tr) =>
         some (⟨n, u, h⟩, cmd, assembleArgs cap tr)
     | none => none) <|> parseNoOrigin (c :: t)
    else parseNoOrigin (c :: t)) = _
  rw [if_neg h]

/-- Evaluation of the post-origin grammar on a space-free command token
followed by a rest that is empty or begins with a space. -/
theorem parseAfterOrigin_eval (c0 : Char) (cmd' rest' : Str)
    (hc0sp : c0 ≠ ' ')
    (hcmdsp : ∀ c ∈ (c0 :: cmd'), c ≠ ' ')
    (hshape : rest' = [] ∨ ∃ r, rest' = ' ' :: r) :
    parseAfterOrigin ((c0 :: cmd') ++ rest') =
      some ((c0 :: cmd'), (middleCapture 14 rest').1,
        (trailingCapture (middleCapture 14 rest').2).getD []) := by
  rw [show (c0 :: cmd') ++ rest' = c0 :: (cmd' ++ rest') from rfl]
  show (if c0 = ' ' then none
    else
      let t := takeNonSpace (c0 :: (cmd' ++ rest'))
      let m := middleCapture 14 t.2
      some (t.1, m.1, (trailingCapture m.2).getD [])) = _
  rw [if_neg hc0sp]
  rw [show (c0 :: (cmd' ++ rest')) = ((c0 :: cmd') ++ rest') from rfl]
  rw [takeNonSpace_append _ _ hcmdsp hshape]

/-- C3 amended: parse inverts format for every nonempty all-alphanumeric
command and argument list of at most 15 entries whose entries are nonempty
and free of NUL, CR and LF, whose non-last entries contain no Python
whitespace (in particular no space) and do not begin with a colon; the last
entry may contain spaces and begin with a colon. -/
theorem c3_parse_format_roundtrip (command : Str) (args : List Str)
    (hcmdne : command ≠ [])
    (hcmdok : ∀ c ∈ command, isAlnumAscii c = true)
    (hlen : args.length ≤ 15)
    (hne : ∀ a ∈ args, a ≠ [])
    (hforb : ∀ a ∈ args, ∀ c ∈ a, c ≠ '\x00' ∧ c ≠ '\r' ∧ c ≠ '\n')
    (hmid : ∀ a ∈ args.dropLast, ∀ c ∈ a, isPySpace c = false)
    (hcolon : ∀ a ∈ args.dropLast, a.head? ≠ some ':') :
    (format command args).bind parseCmdArgs = some (command, args) := by
  have g1 : ((args ++ [command]).any List.isEmpty) = false := by
    rw [Bool.eq_false_iff]
    intro hcontra
    rw [List.any_eq_true] at hcontra
    obtain ⟨a, ha, haE⟩ := hcontra
    rw [List.isEmpty_iff] at haE
    rcases List.mem_append.mp ha with ha | ha
    · exact hne a ha haE
    · rw [List.mem_singleton] at ha
      subst ha
      exact hcmdne haE
  have g2 : reDollarAll isAlnumAscii command = true :=
    (reDollarAll_iff _ _).mpr (Or.inl ⟨hcmdne, hcmdok⟩)
  have g3 : args.all (reDollarAll isArgChar) = true := by
    rw [List.all_eq_true]
    intro a ha
    refine (reDollarAll_iff _ _).mpr (Or.inl ⟨hne a ha, ?_⟩)
    intro c hc
    have h3 := hforb a ha c hc
    simp [isArgChar, h3.1, h3.2.1, h3.2.2]
  have g4 : (args.dropLast.any fun a => a.head? == some ':') = false := by
    rw [Bool.eq_false_iff]
    intro hcontra
    rw [List.any_eq_true] at hcontra
    obtain ⟨a, ha, hcol⟩ := hcontra
    rw [beq_iff_eq] at hcol
    exact hcolon a ha hcol
  have g5 : (args.dropLast.any fun a => a.contains ' ') = false := by
    rw [Bool.eq_false_iff]
    intro hcontra
    rw [List.any_eq_true] at hcontra
    obtain ⟨a, ha, hsp⟩ := hcontra
    have hmem : ' ' ∈ a := by simpa using hsp
    exact absurd (hmid a ha ' ' hmem) (by decide)
  have hformat : format command args =
      some (joinSpace (command :: markLast args)) := by
    unfold format
    rw [g1, g2, g3, g4, g5]
    rfl
  rw [hformat]
  rw [show (some (joinSpace (command :: markLast args))).bind parseCmdArgs =
    parseCmdArgs (joinSpace (command :: markLast args)) from rfl]
  obtain ⟨c0, cmd', rfl⟩ : ∃ c0 cmd', command = c0 :: cmd' := by
    rcases command with _ | ⟨c0, cmd'⟩
    · exact absurd rfl hcmdne
    · exact ⟨c0, cmd', rfl⟩
  have hc0 := isAlnumAscii_ne c0 (hcmdok c0 (List.mem_cons_self _ _))
  have hcmdsp : ∀ c ∈ (c0 :: cmd'), c ≠ ' ' :=
    fun c hc => (isAlnumAscii_ne c (hcmdok c hc)).2
  rcases List.eq_nil_or_concat args with rfl | ⟨mids, last, hargs⟩
  · show parseCmdArgs (joinSpace [c0 :: cmd']) = _
    rw [show joinSpace [c0 :: cmd'] = c0 :: cmd' from rfl]
    unfold parseCmdArgs
    rw [parse_eq_noOrigin c0 cmd' hc0.1]
    unfold parseNoOrigin
    have hpe := parseAfterOrigin_eval c0 cmd' [] hc0.2 hcmdsp (Or.inl rfl)
    rw [List.append_nil] at hpe
    rw [hpe]
    rfl
  · rw [List.concat_eq_append] at hargs
    subst hargs
    have hdl : (mids ++ [last]).dropLast = mids := List.dropLast_concat
    rw [hdl] at hmid hcolon
    have hlast_ne : last ≠ [] := hne last (by simp)
    have hlast_nonl : ∀ c ∈ last, c ≠ '\n' :=
      fun c hc => (hforb last (by simp) c hc).2.2
    have hmids_ne : ∀ a ∈ mids, a ≠ [] :=
      fun a ha => hne a (List.mem_append_left _ ha)
    have hmids_nosp : ∀ a ∈ mids, ∀ c ∈ a, c ≠ ' ' := by
      intro a ha c hc
      rintro rfl
      exact absurd (hmid a ha ' ' hc) (by decide)
    have hmlen : mids.length ≤ 14 := by
      simp only [List.length_append, List.length_singleton] at hlen
      omega
  
    have hline : joinSpace ((c0 :: cmd') :: markLast (mids ++ [last])) =
        (c0 :: cmd') ++ (renderMids mids ++ (' ' :: ':' :: last)) := by
      rw [markLast_concat, joinSpace_cons, renderMids_append]
      congr 1
      simp [renderMids]
    rw [hline]
    unfold parseCmdArgs
    rw [show (c0 :: cmd') ++ (renderMids mids ++ (' ' :: ':' :: last)) =
      c0 :: (cmd' ++ (renderMids mids ++ (' ' :: ':' :: last))) from rfl]
    rw [parse_eq_noOrigin c0 _ hc0.1]
    unfold parseNoOrigin
    rw [show c0 :: (cmd' ++ (renderMids mids ++ (' ' :: ':' :: last))) =
      ((c0 :: cmd') ++ (renderMids mids ++ (' ' :: ':' :: last))) from rfl]
    rw [parseAfterOrigin_eval c0 cmd' _ hc0.2 hcmdsp
      (renderMids_tail_shape mids _ (Or.inr ⟨':' :: last, rfl⟩))]
    rw [middleCapture_renders mids 14 (' ' :: ':' :: last) hmlen hmids_ne
      hmids_nosp hcolon (Or.inr ⟨last, rfl⟩)]
    rw [show (renderMids mids, ' ' :: ':' :: last).1 = renderMids mids from rfl]
    rw [show (renderMids mids, ' ' :: ':' :: last).2 = ' ' :: ':' :: last from rfl]
    rw [show trailingCapture (' ' :: ':' :: last) =
      some (takeNoNewline last) from rfl]
    rw [takeNoNewline_eq last hlast_nonl]
    rw [show (some last).getD [] = last from rfl]
    have hassemble : assembleArgs (renderMids mids) last = mids ++ [last] := by
      unfold assembleArgs
      rw [pySplit_renderMids mids hmids_ne hmid]
      rw [show (if last.isEmpty then ([] : List Str) else [last]) = [last] from by
        simp [List.isEmpty_iff, hlast_ne]]
    show Option.map (fun r => (r.2.1, r.2.2))
        (some (({ nick := [], username := [], hostname := [] } : Nickname),
          c0 :: cmd', assembleArgs (renderMids mids) last)) =
      some (c0 :: cmd', mids ++ [last])
    rw [hassemble]
    rfl

/-- The message regex fails to tokenize exactly the empty line and lines
beginning with a space; every other line parses. -/
theorem parse_fail_domain (m : Str) :
    parse m = none ↔ m = [] ∨ m.head? = some ' ' := by
  cases m with
  | nil => simp [parse]
  | cons c t =>
      by_cases hsp : c = ' '
      · subst hsp
        constructor
        · intro _
          exact Or.inr rfl
        · intro _
          rw [parse_eq_noOrigin ' ' t (by decide)]
          rfl
      · by_cases hcol : c = ':'
        · subst hcol
          constructor
          · intro hnone
            exfalso
            simp only [parse, if_true] at hnone
            cases htn : tryNick t with
            | some x =>
                obtain ⟨n, u, h2, cmd, cap, tr⟩ := x
                rw [htn] at hnone
                simp at hnone
            | none =>
                rw [htn] at hnone
                simp [parseNoOrigin, parseAfterOrigin] at hnone
          · rintro (h | h) <;> simp at h
        · rw [parse_eq_noOrigin c t hcol]
          constructor
          · intro hnone
            exfalso
            simp [parseNoOrigin, parseAfterOrigin, hsp] at hnone
          · rintro (h | h)
            · simp at h
            · simp [hsp] at h

/-- C5 amended: parse fails exactly on untokenizable lines (the empty line
and lines beginning with a space) and succeeds on all well-formed input, but
an untokenizable line is not dropped: match.groups raises AttributeError, so
the listen loop aborts at that line and subsequent lines are not
processed. -/
theorem c5_parse_failure_behavior (m : Str) :
    (parse m = none ↔ m = [] ∨ m.head? = some ' ') ∧
    (∀ ls : List Str, parse m = none → listenLoop (m :: ls) = ([], some m)) := by
  refine ⟨parse_fail_domain m, ?_⟩
  intro ls h
  simp [listenLoop, h]

/-- The failure condition asserted by claim C4, stated from the spec's words:
some argument or the command is the empty string, some argument contains
NUL, CR or LF, or a non-last argument contains a space or starts with a
colon. -/
def specFormatFails (command : Str) (args : List Str) : Prop :=
  command = [] ∨ (∃ a ∈ args, a = []) ∨
  (∃ a ∈ args, ∃ c ∈ a, c = '\x00' ∨ c = '\r' ∨ c = '\n') ∨
  (∃ a ∈ args.dropLast, ' ' ∈ a ∨ a.head? = some ':')

instance (command : Str) (args : List Str) :
    Decidable (specFormatFails command args) := by
  unfold specFormatFails
  infer_instance

/-- C4 counterexample: the claimed condition list is wrong in both
directions.  format("A!", []) raises although none of the claimed conditions
holds, and format("PING", ["a\n"]) succeeds — emitting a line containing a
LF — although the claimed "some argument contains LF" condition holds. -/
theorem c4_cx_error_condition :
    (format ("A!".toList) [] = none ∧ ¬ specFormatFails ("A!".toList) []) ∧
    (format ("PING".toList) [("a\n".toList)] = some ("PING :a\n".toList) ∧
      specFormatFails ("PING".toList) [("a\n".toList)]) := by
  refine ⟨⟨rfl, by decide⟩, ⟨rfl, by decide⟩⟩

/-- The validation rule as stated by claim C3: all entries non-empty, no
entry containing NUL, CR or LF, only the last argument containing a space or
starting with a colon. -/
def specValidArgs (command : Str) (args : List Str) : Prop :=
  command ≠ [] ∧ (∀ a ∈ args, a ≠ []) ∧
  (∀ c ∈ command, c ≠ '\x00' ∧ c ≠ '\r' ∧ c ≠ '\n') ∧
  (∀ a ∈ args, ∀ c ∈ a, c ≠ '\x00' ∧ c ≠ '\r' ∧ c ≠ '\n') ∧
  (∀ a ∈ args.dropLast, ' ' ∉ a ∧ a.head? ≠ some ':')

instance (command : Str) (args : List Str) :
    Decidable (specValidArgs command args) := by
  unfold specValidArgs
  infer_instance

/-- C3 counterexample: the pair ("A", ["a\tb", "c"]) satisfies the claim's
validation rule (a tab is none of NUL, CR, LF or a space), yet the round
trip returns ("A", ["a", "b", "c"]): parse splits the captured middle
arguments with str.split(), which also breaks on tabs. -/
theorem c3_cx_tab_split :
    specValidArgs ("A".toList) [("a\tb".toList), ("c".toList)] ∧
    (format ("A".toList) [("a\tb".toList), ("c".toList)]).bind parseCmdArgs ≠
      some (("A".toList), [("a\tb".toList), ("c".toList)]) ∧
    (format ("A".toList) [("a\tb".toList), ("c".toList)]).bind parseCmdArgs =
      some (("A".toList), [("a".toList), ("b".toList), ("c".toList)]) := by
  refine ⟨by decide, by decide, by decide⟩

/-- C3 witness: the amended round trip at PRIVMSG with a channel and a
spaced trailing argument. -/
theorem c3_parse_format_roundtrip_witness :
    (format ("PRIVMSG".toList) [("#chan".toList), ("hello world".toList)]).bind
        parseCmdArgs =
      some (("PRIVMSG".toList), [("#chan".toList), ("hello world".toList)]) :=
  c3_parse_format_roundtrip ("PRIVMSG".toList)
    [("#chan".toList), ("hello world".toList)]
    (by decide) (by decide) (by decide) (by decide) (by decide) (by decide)
    (by decide)

/-- C5 counterexample: the empty line cannot be tokenized; instead of being
dropped, it aborts the listen loop, so the following well-formed line PING x
is never processed. -/
theorem c5_cx_loop_aborts :
    parse ([] : Str) = none ∧
    listenLoop [([] : Str), ("PING x".toList)] = ([], some ([] : Str)) ∧
    parse ("PING x".toList) ≠ none := by
  refine ⟨rfl, rfl, by decide⟩

/-- C5 witness: the amended behaviour at the empty line followed by a
well-formed line. -/
theorem c5_parse_failure_behavior_witness :
    (parse ([] : Str) = none ↔ ([] : Str) = [] ∨ ([] : Str).head? = some ' ') ∧
    listenLoop [([] : Str), ("PING x".toList)] = ([], some ([] : Str)) :=
  ⟨(c5_parse_failure_behavior []).1,
   (c5_parse_failure_behavior []).2 [("PING x".toList)] (by decide)⟩

/-! ## pyrcb.py: byte-safe splitting (IRCBot.split_string) -/

/-- UTF-8 encoding of one character (as in str.encode("utf8")). -/
def utf8EncodeChar (c : Char) : List Nat :=
  let n := c.toNat
  if n < 0x80 then [n]
  else if n < 0x800 then [0xc0 + n / 0x40, 0x80 + n % 0x40]
  else if n < 0x10000 then
    [0xe0 + n / 0x1000, 0x80 + n / 0x40 % 0x40, 0x80 + n % 0x40]
  else
    [0xf0 + n / 0x40000, 0x80 + n / 0x1000 % 0x40, 0x80 + n / 0x40 % 0x40,
     0x80 + n % 0x40]

/-- UTF-8 encoding of a string. -/
def utf8Encode (s : Str) : List Nat := (s.map utf8EncodeChar).flatten

/-- Whether a byte is a UTF-8 continuation byte. -/
def isContByte (b : Nat) : Bool := 0x80 ≤ b && b < 0xc0

/-- UTF-8 decoding (bytes.decode("utf8")); none models a raised
UnicodeDecodeError. -/
def utf8Decode : List Nat → Option Str
  | [] => some []
  | b :: bs =>
      if b < 0x80 then (utf8Decode bs).map (fun t => Char.ofNat b :: t)
      else if 0xc0 ≤ b ∧ b < 0xe0 then
        match bs with
        | b1 :: bs' =>
            if isContByte b1 then
              (utf8Decode bs').map
                (fun t => Char.ofNat ((b - 0xc0) * 0x40 + (b1 - 0x80)) :: t)
            else none
        | [] => none
      else if 0xe0 ≤ b ∧ b < 0xf0 then
        match bs with
        | b1 :: b2 :: bs' =>
            if isContByte b1 && isContByte b2 then
              (utf8Decode bs').map (fun t =>
                Char.ofNat ((b - 0xe0) * 0x1000 + (b1 - 0x80) * 0x40 +
                  (b2 - 0x80)) :: t)
            else none
        | _ => none
      else if 0xf0 ≤ b ∧ b < 0xf8 then
        match bs with
        | b1 :: b2 :: b3 :: bs' =>
            if isContByte b1 && isContByte b2 && isContByte b3 then
              (utf8Decode bs').map (fun t =>
                Char.ofNat ((b - 0xf0) * 0x40000 + (b1 - 0x80) * 0x1000 +
                  (b2 - 0x80) * 0x40 + (b3 - 0x80)) :: t)
            else none
        | _ => none
      else none

/-- Index of the last byte that is at least 0xc0, as computed by
next(i for i, c in reversed(list(enumerate(split))) if c >= 0xc0); none
models the StopIteration next() raises when no such byte exists. -/
def lastLeadIdx : List Nat → Option Nat
  | [] => none
  | b :: bs =>
      match lastLeadIdx bs with
      | some i => some (i + 1)
      | none => if 0xc0 ≤ b then some 0 else none

/-- Index of the last whitespace character, as computed by
next((i for i, c in chars if c.isspace()), -1), with none for the -1
default. -/
def lastSpaceIdx : Str → Option Nat
  | [] => none
  | c :: cs =>
      match lastSpaceIdx cs with
      | some i => some (i + 1)
      | none => if isPySpace c then some 0 else none

/-- Embedding of IRCBot.split_once: a non-positive bytelen raises
ValueError (none); otherwise the UTF-8 byte string is cut at bytelen, the
cut retreats to the last lead byte when it falls inside a multi-byte
character, and both sides are decoded back to text. -/
def split_once (s : Str) (bytelen : Nat) : Option (Str × Str) :=
  if bytelen = 0 then none
  else
    let bytestr := utf8Encode s
    if bytestr.length ≤ bytelen then some (s, [])
    else
      let split := bytestr.take bytelen
      let rest := bytestr.drop bytelen
      let p :=
        if 0x80 ≤ split.getLast?.getD 0 ∧
            0x80 ≤ rest.head?.getD 0 ∧ rest.head?.getD 0 ≤ 0xc0 then
          match lastLeadIdx split with
          | some start => some (split.take start, split.drop start ++ rest)
          | none => none
        else some (split, rest)
      match p with
      | none => none
      | some (sp, rs) =>
          match utf8Decode sp, utf8Decode rs with
          | some a, some b => some (a, b)
          | _, _ => none

/-- Embedding of IRCBot.split_nobreak: split_once, then — when the cut
falls inside a run of non-whitespace — retreat to the last whitespace in
the first piece, and finally remove one space character between the pieces.
none models an uncaught exception; in particular, evaluating split[-1] when
split_once returned an empty first piece raises IndexError. -/
def split_nobreak (s : Str) (bytelen : Nat) : Option (Str × Str) :=
  match split_once s bytelen with
  | none => none
  | some (split0, rest0) =>
      if rest0.isEmpty then some (split0, rest0)
      else
        match split0.getLast?, rest0.head? with
        | none, _ => none
        | _, none => none
        | some lastc, some firstc =>
            let moved :=
              if ¬ isPySpace lastc = true ∧ ¬ isPySpace firstc = true then
                match lastSpaceIdx split0 with
                | some i => (split0.take i, split0.drop i ++ rest0)
                | none => (split0, rest0)
              else (split0, rest0)
            match moved.2.head? with
            | none => none
            | some r0 =>
                if r0 = ' ' then some (moved.1, moved.2.tail)
                else
                  match moved.1.getLast? with
                  | none => none
                  | some l =>
                      if l = ' ' then some (moved.1.dropLast, moved.2)
                      else some (moved.1, moved.2)

/-- Outcome of running the split_string while loop with bounded fuel:
a normal return, an uncaught exception, or fuel exhaustion (the loop is
still running). -/
inductive SplitResult where
  | ok (pieces : List Str)
  | err
  | fuelOut
deriving DecidableEq, Repr

/-- One execution of the split_string while loop, fuel-bounded: while not
result or (rest and not once), call the selected split function, append the
piece and continue on the rest. -/
def split_string_loop (nobreak once : Bool) (bytelen : Nat) :
    Nat → List Str → Str → SplitResult
  | 0, _, _ => SplitResult.fuelOut
  | Nat.succ fuel, result, rest =>
      if result.isEmpty = true ∨ (¬ rest.isEmpty = true ∧ ¬ once = true) then
        match (if nobreak then split_nobreak else split_once) rest bytelen with
        | none => SplitResult.err
        | some (sp, rs) =>
            split_string_loop nobreak once bytelen fuel (result ++ [sp]) rs
      else SplitResult.ok result

/-- Embedding of IRCBot.split_string, with the loop given explicit fuel. -/
def split_string (s : Str) (bytelen : Nat) (nobreak once : Bool)
    (fuel : Nat) : SplitResult :=
  split_string_loop nobreak once bytelen fuel [] s


/-- C10: split_string does not terminate for every input and bytelen >= 1.
At split_string("§", 1) — a string whose first character needs two UTF-8
bytes against a one-byte budget — split_once returns an empty piece with the
input unchanged, so with nobreak the first iteration raises IndexError at
split[-1], and without nobreak the while loop runs forever: no amount of
fuel makes it return, since every iteration appends an empty piece and
leaves the rest untouched. -/
theorem c10_split_string_diverges :
    (∀ fuel : Nat, split_string ("§".toList) 1 true false (fuel + 1) =
      SplitResult.err) ∧
    (∀ (fuel : Nat) (pieces : List Str),
      split_string ("§".toList) 1 false false fuel ≠ SplitResult.ok pieces) ∧
    split_once ("§".toList) 1 = some ([], "§".toList) := by
  refine ⟨?_, ?_, by decide⟩
  · intro fuel
    rfl
  · have main : ∀ (fuel : Nat) (acc : List Str) (pieces : List Str),
        split_string_loop false false 1 fuel acc ("§".toList) ≠
          SplitResult.ok pieces := by
      intro fuel
      induction fuel with
      | zero =>
          intro acc pieces h
          exact SplitResult.noConfusion h
      | succ n ih =>
          intro acc pieces h
          rw [show split_string_loop false false 1 (n + 1) acc ("§".toList) =
            split_string_loop false false 1 n (acc ++ [[]]) ("§".toList) from by
              show (if acc.isEmpty = true ∨
                  (¬ ("§".toList : Str).isEmpty = true ∧ ¬ false = true) then
                  (match split_once ("§".toList) 1 with
                   | none => SplitResult.err
                   | some (sp, rs) =>
                       split_string_loop false false 1 n (acc ++ [sp]) rs)
                else SplitResult.ok acc) = _
              rw [if_pos (Or.inr (by decide))]
              rfl] at h
          exact ih _ _ h
    intro fuel pieces
    exact main fuel [] pieces
